import Mathlib

/-!
Verification of the CGGMP21 threshold-ECDSA implementation (dfns/cggmp21).

Shallow embedding conventions:
* `Scalar` of the curve is modelled as `ZMod q` for a prime `q` (the curve group
  order `q_E`).  `Point` of the prime-order curve group is modelled in the
  exponent: a point is the discrete logarithm of itself with respect to some
  fixed generator, i.e. points are also `ZMod q`, the generator is a parameter
  `g : ZMod q`, point addition is addition and scalar multiplication of a point
  is multiplication in `ZMod q`.  Every prime-order group is isomorphic to this
  model, and none of the verified code paths depend on more than the
  `AddCommGroup`/scalar-action structure of points.
* Byte strings (`rid` nonces) are lists of naturals; XOR is `Nat.xor`.
* Hash functions, hash commitments and the zero-knowledge proof systems are
  external libraries for the code under verification; where a code path only
  branches on the *result* of such a primitive, the primitive is passed in as
  an opaque function parameter.
* Fallible Rust code returning `Result`/`Option` is modelled with
  `Except`/`Option`.
-/

namespace Cggmp21

/-! ## Big-integer utilities (`cggmp21/src/utils.rs`) -/

/-- `but_nth n iter` drops the `n`-th item of the iterator
(`utils.rs::but_nth`, implemented as `enumerate().filter(i != n).map`). -/
def but_nth {α : Type} (n : Nat) (xs : List α) : List α :=
  (xs.enum.filter (fun p => p.1 ≠ n)).map (fun p => p.2)

/-- Binary search for the rounded-down square root (`utils.rs::sqrt` loop).
The Rust loop `while low < high - 1` with `mid = (high + low) / 2` on
arbitrary-precision integers. -/
def sqrtGo (x low high : Int) : Int :=
  if _h : low < high - 1 then
    let mid := (high + low) / 2
    let test := mid * mid
    if test = x then mid
    else if test < x then sqrtGo x mid high
    else sqrtGo x low mid
  else low
termination_by (high - low).toNat
decreasing_by
  · omega
  · omega

/-- `utils.rs::sqrt`: starts the binary search with `low = 1`, `high = x`.
For non-positive inputs the loop body never runs and `1` is returned. -/
def sqrt (x : Int) : Int :=
  sqrtGo x 1 x

/-- `utils.rs::xor_array`: `a.iter_mut().zip(b).for_each(a_i ^= b_i)` —
the result keeps the length of `a`; entries of `a` beyond `b`'s length are
unchanged. -/
def xor_array (a b : List Nat) : List Nat :=
  (a.zipWith Nat.xor b) ++ a.drop b.length

section Scalars

variable (q : ℕ) [Fact (Nat.Prime q)]

/-- `Scalar::invert` of the curve library: multiplicative inverse in
`ZMod q`, `none` for zero. -/
def invertScalar (a : ZMod q) : Option (ZMod q) :=
  if a = 0 then none else some a⁻¹

/-- `NonZero::from_scalar`: succeeds exactly on non-zero scalars. -/
def nonZeroScalar (a : ZMod q) : Option (ZMod q) :=
  if a = 0 then none else some a

/-- `utils.rs::lagrange_coefficient`: the Lagrange coefficient
`λ_j = Π_{m ≠ j} (x - xs[m]) / Π_{m ≠ j} (xs[j] - xs[m])` used to interpolate
a polynomial at point `x`.  Returns `none` when `xs.get j` is out of range,
when the denominator is not invertible, or when the resulting coefficient is
zero (`NonZero::from_scalar` fails). -/
def lagrange_coefficient (x : ZMod q) (j : Nat) (xs : List (ZMod q)) :
    Option (ZMod q) :=
  let nom := ((but_nth j xs).map (fun x_m => x - x_m)).prod
  match xs.get? j with
  | none => none
  | some x_j =>
    let denom := ((but_nth j xs).map (fun x_m => x_j - x_m)).prod
    match invertScalar q denom with
    | none => none
    | some denom_inv => nonZeroScalar q (nom * denom_inv)

end Scalars

/-! ## Signing data model (`cggmp21/src/signing.rs`) -/

/-- `signing.rs::Signature`: an ECDSA signature.  In the source both fields
are `NonZero<Scalar>`; non-zeroness is enforced at every construction site
(`NonZero::from_scalar`) and carried here as side conditions. -/
structure Signature (q : ℕ) where
  r : ZMod q
  s : ZMod q
deriving DecidableEq

/-- `signing.rs::PartialSignature`: partial signature `(r, σ)` issued by one
signer. -/
structure PartialSignature (q : ℕ) where
  r : ZMod q
  sigma : ZMod q
deriving DecidableEq

/-- `signing.rs::Presignature`: `(R, k, χ)`; `R` is a (non-zero) point, kept
abstract in the point type `P`. -/
structure Presignature (P : Type) (q : ℕ) where
  R : P
  k : ZMod q
  chi : ZMod q

section Signing

variable (q : ℕ) [Fact (Nat.Prime q)]

/-- `Signature::normalize_s`: replaces `s` by `-s` when `-s < s` in the
byte-wise (canonical-representative) order of scalars, which on `ZMod q` is
the order of `ZMod.val`. -/
def normalize_s (sig : Signature q) : Signature q :=
  let neg_s := -sig.s
  if neg_s.val < sig.s.val then { sig with s := neg_s } else sig

/-- `PartialSignature::combine`: `None` on empty input, otherwise takes `r`
from the first partial signature, sums all `σ` components, wraps both in
`NonZero` and normalizes. -/
def combine (partial_signatures : List (PartialSignature q)) :
    Option (Signature q) :=
  match partial_signatures with
  | [] => none
  | p0 :: _ =>
    match nonZeroScalar q p0.r with
    | none => none
    | some r =>
      match nonZeroScalar q ((partial_signatures.map (fun p => p.sigma)).sum) with
      | none => none
      | some s => some (normalize_s q { r := r, s := s })

/-- `Presignature::issue_partial_signature`: `r = R.x mod q`, `σ = k·m + r·χ`.
The affine-`x`-coordinate map of the curve is an external primitive, passed as
`xcoord`. -/
def issue_partial_signature {P : Type} (xcoord : P → ZMod q)
    (presig : Presignature P q) (message_to_sign : ZMod q) :
    PartialSignature q :=
  let r := xcoord presig.R
  let m := message_to_sign
  let sigma_i := presig.k * m + r * presig.chi
  { r := r, sigma := sigma_i }

/-- Signature assembly inside `signing_n_out_of_n` (signing.rs lines
1034-1040): `r` from the own partial signature, `s` the sum of all `σ`
components (own plus received), both checked non-zero, then `normalize_s`. -/
def assembleSignature (partial_sig : PartialSignature q)
    (received_sigmas : List (ZMod q)) : Option (Signature q) :=
  match nonZeroScalar q partial_sig.r with
  | none => none
  | some r =>
    match nonZeroScalar q (partial_sig.sigma + received_sigmas.sum) with
    | none => none
    | some s => some (normalize_s q { r := r, s := s })

end Signing

/-! ## Signing errors (`cggmp21/src/signing.rs`) -/

/-- `signing.rs::InvalidArgs`. -/
inductive InvalidArgs where
  | MismatchedAmountOfParties
  | SignerIndexOutOfBounds
  | InvalidS
deriving DecidableEq

/-- `signing.rs::SigningAborted`.  `PartyIndex` and `MsgId` are both modelled
as `Nat`.  The `InvalidPsi` payload keeps, per faulty party, which of the
three proofs `(ψ, ψ̂, ψ')` failed (`Option Unit` standing for
`Option<InvalidProof>`). -/
inductive SigningAborted where
  | EncProofOfK (faulty : List (Nat × Nat × Nat))
  | InvalidPsi (faulty : List (Nat × Nat × Nat × (Option Unit × Option Unit × Option Unit)))
  | InvalidPsiPrimePrime (faulty : List (Nat × Nat × Nat))
  | MismatchedDelta
  | SignatureInvalid
  | Round1aNotReliable (parties : List (Nat × Nat))

/-- `signing.rs::Bug` (the variants reachable in the verified code paths). -/
inductive SigningBug where
  | ZeroDelta
  | ZeroR
deriving DecidableEq

/-- `signing.rs::Reason` flattened into the cases the verified paths
produce. -/
inductive SigningError where
  | InvalidArgsErr (e : InvalidArgs)
  | Aborted (e : SigningAborted)
  | BugErr (e : SigningBug)

/-! ## Argument validation (`signing_t_out_of_n`, signing.rs lines 373-393) -/

/-- The argument checks at the top of `signing_t_out_of_n`:
`t = vss_setup.map(min_signers).unwrap_or(n)`; error when `S.len() != t`,
when `!(i < t)`, or when some element of `S` is `>= n`. -/
def validateArgs (n : Nat) (vss_min_signers : Option Nat) (S : List Nat)
    (i : Nat) : Option InvalidArgs :=
  let t := vss_min_signers.getD n
  if S.length ≠ t then some .MismatchedAmountOfParties
  else if ¬ i < t then some .SignerIndexOutOfBounds
  else if S.any (fun S_j => n ≤ S_j) then some .InvalidS
  else none

/-- Output of the signing protocol (`signing.rs::ProtocolOutput`). -/
inductive ProtocolOutput (P : Type) (q : ℕ) where
  | Presignature (presig : Presignature P q)
  | Signature (sig : Signature q)

/-- Control skeleton of `signing_t_out_of_n`: the argument validation runs
before any message is sent; on failure the function returns at once.  The
remainder of the protocol (which is the only part that sends messages) is the
continuation `rest`, returning its result paired with the trace of messages
it sent. -/
def signing_t_out_of_n {P : Type} (q : ℕ) (n : Nat)
    (vss_min_signers : Option Nat) (S : List Nat) (i : Nat)
    (rest : Except SigningError (ProtocolOutput P q) × List Nat) :
    Except SigningError (ProtocolOutput P q) × List Nat :=
  match validateArgs n vss_min_signers S i with
  | some e => (.error (.InvalidArgsErr e), [])
  | none => rest

/-! ## Reliability check (signing.rs lines 571-608) -/

/-- The reliability round: each received message is `(j, msg_id, hash)`; the
party collects every peer whose broadcast hash of the Round-1a transcript
differs from its own hash `h_i` (signing.rs lines 600-604). -/
def round1aReliabilityBlame (h_i : Nat)
    (round1a_hashes : List (Nat × Nat × Nat)) : List (Nat × Nat) :=
  (round1a_hashes.filter (fun t => t.2.2 ≠ h_i)).map (fun t => (t.1, t.2.1))

/-- The reliability check aborts with `Round1aNotReliable` exactly when the
collected list is non-empty (signing.rs lines 605-607). -/
def reliabilityCheck (h_i : Nat) (round1a_hashes : List (Nat × Nat × Nat)) :
    Except SigningError Unit :=
  let parties_have_different_hashes := round1aReliabilityBlame h_i round1a_hashes
  if parties_have_different_hashes.isEmpty then .ok ()
  else .error (.Aborted (.Round1aNotReliable parties_have_different_hashes))

/-! ## Round-2 proof verification (signing.rs lines 798-872) -/

/-- The Round-3 verification loop over all Round-2 messages: for each peer
message `(j, ciphertext_msg_id, msg_id)` the three proofs `ψ`, `ψ̂`, `ψ'` are
verified (the verifiers are external ZK primitives, passed as functions of
the peer index returning `some err` on failure), and the peer is pushed on
the faulty list when at least one verification failed.  The loop never exits
early. -/
def collectFaultyRound2 (psiErr hatPsiErr psiPrimeErr : Nat → Option Unit)
    (round2_msgs : List (Nat × Nat × Nat)) :
    List (Nat × Nat × Nat × (Option Unit × Option Unit × Option Unit)) :=
  round2_msgs.filterMap (fun m =>
    let j := m.1
    let psi_invalid := psiErr j
    let hat_psi_invalid := hatPsiErr j
    let psi_prime_invalid := psiPrimeErr j
    if psi_invalid.isSome || hat_psi_invalid.isSome || psi_prime_invalid.isSome then
      some (j, m.2.1, m.2.2, (psi_invalid, hat_psi_invalid, psi_prime_invalid))
    else none)

/-- After the loop: abort with `InvalidPsi` carrying the whole faulty list
when it is non-empty (signing.rs lines 870-872). -/
def round2Validation (psiErr hatPsiErr psiPrimeErr : Nat → Option Unit)
    (round2_msgs : List (Nat × Nat × Nat)) : Except SigningError Unit :=
  let faulty_parties := collectFaultyRound2 psiErr hatPsiErr psiPrimeErr round2_msgs
  if faulty_parties.isEmpty then .ok ()
  else .error (.Aborted (.InvalidPsi faulty_parties))

/-! ## Presignature output step (signing.rs lines 983-1001) -/

section Presig

variable (q : ℕ) [Fact (Nat.Prime q)]

/-- The presignature-output step after all `ψ''` proofs verified:
`δ = δ_i + Σ δ_j`, `Δ = Δ_i + Σ Δ_j`; abort `MismatchedDelta` when
`G·δ ≠ Δ`; otherwise `R = Γ·δ⁻¹` (bug when `δ = 0`), wrapped in
`NonZero::from_point` (bug when `R = 0`). -/
def presigOutput (g Gamma k_i chi_i delta_i Delta_i : ZMod q)
    (round3_msgs : List (ZMod q × ZMod q)) :
    Except SigningError (Presignature (ZMod q) q) :=
  let delta := delta_i + (round3_msgs.map (fun m => m.1)).sum
  let Delta := Delta_i + (round3_msgs.map (fun m => m.2)).sum
  if g * delta ≠ Delta then .error (.Aborted .MismatchedDelta)
  else
    match invertScalar q delta with
    | none => .error (.BugErr .ZeroDelta)
    | some delta_inv =>
      let R := Gamma * delta_inv
      if R = 0 then .error (.BugErr .ZeroR)
      else .ok { R := R, k := k_i, chi := chi_i }

end Presig

/-! ## Non-threshold DKG (`src/keygen.rs`) -/

namespace Keygen

/-- `keygen.rs::MsgRound2`: the decommitment broadcast in Round 2, carrying
the rid nonce, the public share `X`, the Schnorr commitment and the
hash-commitment nonce (the latter two are opaque to the verified
properties). -/
structure MsgRound2 (q : ℕ) where
  rid : List Nat
  X : ZMod q
  sch_commit : ZMod q
  decommit : Nat

/-- `keygen.rs::ProtocolAborted`. -/
inductive ProtocolAborted where
  | InvalidDecommitment (parties : List Nat)
  | InvalidSchnorrProof (parties : List Nat)

/-- `keygen.rs` output type (`IncompleteKeyShare` of the key-share module,
fields as constructed at keygen.rs lines 217-223). -/
structure IncompleteKeyShare (q : ℕ) where
  i : Nat
  shared_public_key : ZMod q
  rid : List Nat
  public_shares : List (ZMod q)
  x : ZMod q

/-- `RoundMsgs::into_vec_including_me`: the messages collected from the
`n - 1` peers, in sender order, with the own message inserted at the own
index `i`. -/
def into_vec_including_me {α : Type} (i : Nat) (me : α) (others : List α) :
    List α :=
  others.take i ++ me :: others.drop i

/-- The shared rid: starts from the all-zero byte array of length
`rid_len = κ/8` and XORs in every party's decommitted rid nonce
(keygen.rs lines 173-179). -/
def computeRid (rid_len : Nat) (rids : List (List Nat)) : List Nat :=
  rids.foldl xor_array (List.replicate rid_len 0)

/-- Rounds 2-3 of `KeygenBuilder::start` after all decommitments and Schnorr
proofs are collected (keygen.rs lines 151-224).  `hashOk j d` is the
hash-commitment opening check of party `j`'s decommitment `d` against its
Round-1 commitment, and `schnorrOk rid j d` the Schnorr verification of
party `j`'s Round-3 proof against its decommitment under the challenge
derived from `rid` — both are external primitives the code only branches
on.  On success the incomplete key share is assembled exactly as in the
source. -/
def keygenRounds (q : ℕ) (rid_len : Nat) (i : Nat) (x_i : ZMod q)
    (decommitments : List (MsgRound2 q))
    (hashOk : Nat → MsgRound2 q → Bool)
    (schnorrOk : List Nat → Nat → MsgRound2 q → Bool) :
    Except ProtocolAborted (IncompleteKeyShare q) :=
  let blame :=
    ((decommitments.enum.filter (fun p => ¬ hashOk p.1 p.2)).map (fun p => p.1))
  if ¬ blame.isEmpty then .error (.InvalidDecommitment blame)
  else
    let rid := computeRid rid_len (decommitments.map (fun d => d.rid))
    let blame2 :=
      ((decommitments.enum.filter (fun p => ¬ schnorrOk rid p.1 p.2)).map (fun p => p.1))
    if ¬ blame2.isEmpty then .error (.InvalidSchnorrProof blame2)
    else .ok
      { i := i
        shared_public_key := (decommitments.map (fun d => d.X)).sum
        rid := rid
        public_shares := decommitments.map (fun d => d.X)
        x := x_i }

/-- `KeygenBuilder::start` from the point where the own secret is sampled:
`X_i = G·x_i`, the own decommitment carries `(rid_i, X_i, sch_commit,
nonce)` and is inserted at index `i` among the received ones
(`into_vec_including_me`); the rest is `keygenRounds`. -/
def start (q : ℕ) (g : ZMod q) (rid_len : Nat) (i : Nat) (x_i : ZMod q)
    (rid_i : List Nat) (sch_commit_i : ZMod q) (nonce_i : Nat)
    (received_decommitments : List (MsgRound2 q))
    (hashOk : Nat → MsgRound2 q → Bool)
    (schnorrOk : List Nat → Nat → MsgRound2 q → Bool) :
    Except ProtocolAborted (IncompleteKeyShare q) :=
  let X_i := g * x_i
  let my_decommitment : MsgRound2 q :=
    { rid := rid_i, X := X_i, sch_commit := sch_commit_i, decommit := nonce_i }
  let decommitments := into_vec_including_me i my_decommitment received_decommitments
  keygenRounds q rid_len i x_i decommitments hashOk schnorrOk

end Keygen

/-! ## Remaining verification-side definitions -/

/-- The `ψ0` verification loop (signing.rs lines 610-638): over the zipped
ciphertext/proof messages `(j, msg1_id, msg2_id)`, collect every peer whose
`Π_enc` verification fails; the loop never exits early. -/
def collectFaultyPsi0 (psi0Err : Nat → Bool) (msgs : List (Nat × Nat × Nat)) :
    List (Nat × Nat × Nat) :=
  msgs.filter (fun m => psi0Err m.1)

/-- Abort after the `ψ0` loop (signing.rs lines 635-637). -/
def psi0Validation (psi0Err : Nat → Bool) (msgs : List (Nat × Nat × Nat)) :
    Except SigningError Unit :=
  let faulty_parties := collectFaultyPsi0 psi0Err msgs
  if faulty_parties.isEmpty then .ok ()
  else .error (.Aborted (.EncProofOfK faulty_parties))

/-- The `ψ''` verification loop (signing.rs lines 950-977): same shape as the
`ψ0` loop. -/
def collectFaultyPsiPrimePrime (psiPPErr : Nat → Bool)
    (msgs : List (Nat × Nat × Nat)) : List (Nat × Nat × Nat) :=
  msgs.filter (fun m => psiPPErr m.1)

/-- Abort after the `ψ''` loop (signing.rs lines 979-981). -/
def psiPrimePrimeValidation (psiPPErr : Nat → Bool)
    (msgs : List (Nat × Nat × Nat)) : Except SigningError Unit :=
  let faulty_parties := collectFaultyPsiPrimePrime psiPPErr msgs
  if faulty_parties.isEmpty then .ok ()
  else .error (.Aborted (.InvalidPsiPrimePrime faulty_parties))

/-- A concrete injective stand-in for the digest used by the reliability
check, for evaluating the check on explicit scenarios: byte strings shorter
than any collision bound are read as base-256 numerals with a leading `1`. -/
def hashModel (v : List Nat) : Nat :=
  v.foldl (fun a b => 256 * a + b) 1

/-- Horner evaluation of a polynomial given by its coefficient list
(constant coefficient first); spec-side notion used to state the Lagrange
interpolation property. -/
def evalPoly (q : ℕ) (coeffs : List (ZMod q)) (t : ZMod q) : ZMod q :=
  match coeffs with
  | [] => 0
  | c :: cs => c + t * evalPoly q cs t

/-- The same coefficient list as a Mathlib polynomial (proof-side bridge). -/
noncomputable def toPoly (q : ℕ) [Fact (Nat.Prime q)]
    (coeffs : List (ZMod q)) : Polynomial (ZMod q) :=
  match coeffs with
  | [] => 0
  | c :: cs => Polynomial.C c + Polynomial.X * toPoly q cs

/-- 5 is prime (used to instantiate the scalar field in witnesses). -/
instance fact_prime_five : Fact (Nat.Prime 5) := ⟨by norm_num⟩

/-! ## Theorems -/

/-- C8: for every presignature `(R, k, χ)` and every message scalar `m`,
`issue_partial_signature` returns a partial signature with `r` equal to the
affine x-coordinate of `R` (reduced into the scalar field) and
`σ = k·m + r·χ`. -/
theorem C8_issue_partial_signature (q : ℕ) [Fact (Nat.Prime q)] {P : Type}
    (xcoord : P → ZMod q) (presig : Presignature P q) (m : ZMod q) :
    (issue_partial_signature q xcoord presig m).r = xcoord presig.R ∧
    (issue_partial_signature q xcoord presig m).sigma
      = presig.k * m + xcoord presig.R * presig.chi :=
  ⟨rfl, rfl⟩

/-- C4: the proof-verification loops of the signing protocol run over all
peers before aborting and the abort carries a maximal blame list.  For the
Round-2 check, a peer message is recorded (together with the three
verdicts) iff at least one of its `ψ`, `ψ̂`, `ψ'` proofs is invalid, the
round succeeds iff the collected list is empty, and on failure the
`InvalidPsi` abort carries the complete collected list; the `ψ0`
(`EncProofOfK`) and `ψ''` (`InvalidPsiPrimePrime`) loops satisfy the same
maximality. -/
theorem C4_round2_blame_maximal
    (psiErr hatPsiErr psiPrimeErr : Nat → Option Unit)
    (round2_msgs : List (Nat × Nat × Nat)) :
    (∀ j data_id proof_id, (j, data_id, proof_id) ∈ round2_msgs →
      ((j, data_id, proof_id, (psiErr j, hatPsiErr j, psiPrimeErr j))
          ∈ collectFaultyRound2 psiErr hatPsiErr psiPrimeErr round2_msgs
        ↔ ((psiErr j).isSome ∨ (hatPsiErr j).isSome ∨ (psiPrimeErr j).isSome)))
    ∧ (round2Validation psiErr hatPsiErr psiPrimeErr round2_msgs = .ok ()
        ↔ collectFaultyRound2 psiErr hatPsiErr psiPrimeErr round2_msgs = [])
    ∧ (collectFaultyRound2 psiErr hatPsiErr psiPrimeErr round2_msgs ≠ [] →
        round2Validation psiErr hatPsiErr psiPrimeErr round2_msgs
          = .error (.Aborted (.InvalidPsi
              (collectFaultyRound2 psiErr hatPsiErr psiPrimeErr round2_msgs))))
    ∧ (∀ (psi0Err : Nat → Bool) (msgs : List (Nat × Nat × Nat))
        (m : Nat × Nat × Nat),
        m ∈ collectFaultyPsi0 psi0Err msgs ↔ m ∈ msgs ∧ psi0Err m.1 = true)
    ∧ (∀ (psi0Err : Nat → Bool) (msgs : List (Nat × Nat × Nat)),
        collectFaultyPsi0 psi0Err msgs ≠ [] →
        psi0Validation psi0Err msgs
          = .error (.Aborted (.EncProofOfK (collectFaultyPsi0 psi0Err msgs))))
    ∧ (∀ (psiPPErr : Nat → Bool) (msgs : List (Nat × Nat × Nat))
        (m : Nat × Nat × Nat),
        m ∈ collectFaultyPsiPrimePrime psiPPErr msgs
          ↔ m ∈ msgs ∧ psiPPErr m.1 = true)
    ∧ (∀ (psiPPErr : Nat → Bool) (msgs : List (Nat × Nat × Nat)),
        collectFaultyPsiPrimePrime psiPPErr msgs ≠ [] →
        psiPrimePrimeValidation psiPPErr msgs
          = .error (.Aborted (.InvalidPsiPrimePrime
              (collectFaultyPsiPrimePrime psiPPErr msgs)))) := by
  refine ⟨?_, ?_, ?_, ?_, ?_, ?_, ?_⟩
  · intro j data_id proof_id hmem
    constructor
    · intro hin
      rcases List.mem_filterMap.mp hin with ⟨a, _ha, heq⟩
      by_cases hc : (psiErr a.1).isSome || (hatPsiErr a.1).isSome
          || (psiPrimeErr a.1).isSome
      · simp only [collectFaultyRound2] at heq
        rw [if_pos hc] at heq
        have h1 : a.1 = j := congrArg (fun t => t.1) (Option.some.inj heq)
        rw [h1] at hc
        simpa [or_assoc] using hc
      · simp only [collectFaultyRound2] at heq
        rw [if_neg hc] at heq
        exact absurd heq (by simp)
    · intro hbad
      refine List.mem_filterMap.mpr ⟨(j, data_id, proof_id), hmem, ?_⟩
      have hc : (psiErr j).isSome || (hatPsiErr j).isSome
          || (psiPrimeErr j).isSome := by
        rcases hbad with h | h | h <;> simp [h]
      simp only [collectFaultyRound2]
      rw [if_pos hc]
  · simp only [round2Validation]
    split
    · next h => simpa using List.isEmpty_iff.mp (by simpa using h)
    · next h =>
      constructor
      · intro hcontra; exact absurd hcontra (by simp)
      · intro hnil; exact absurd (by simp [hnil] : (collectFaultyRound2 psiErr
          hatPsiErr psiPrimeErr round2_msgs).isEmpty = true) (by simpa using h)
  · intro hne
    simp only [round2Validation]
    rw [if_neg (by simpa [List.isEmpty_iff] using hne)]
  · intro psi0Err msgs m
    simp [collectFaultyPsi0, List.mem_filter]
  · intro psi0Err msgs hne
    simp only [psi0Validation]
    rw [if_neg (by simpa [List.isEmpty_iff] using hne)]
  · intro psiPPErr msgs m
    simp [collectFaultyPsiPrimePrime, List.mem_filter]
  · intro psiPPErr msgs hne
    simp only [psiPrimePrimeValidation]
    rw [if_neg (by simpa [List.isEmpty_iff] using hne)]

/-- C6: `signing_t_out_of_n` validates its arguments before any message is
sent: validation fails iff `|S| ≠ t` (with `t = min_signers` for a threshold
share and `t = n` otherwise), or the own index `i` is not below `t`, or some
element of `S` is `≥ n`; and whenever validation fails, the protocol
returns the `InvalidArgs` error at once, with no message sent. -/
theorem C6_invalid_args (n : Nat) (vss_min_signers : Option Nat)
    (S : List Nat) (i : Nat) :
    ((validateArgs n vss_min_signers S i).isSome ↔
      (S.length ≠ vss_min_signers.getD n ∨ vss_min_signers.getD n ≤ i
        ∨ ∃ s_j ∈ S, n ≤ s_j))
    ∧ (∀ {P : Type} (qq : ℕ) (e : InvalidArgs)
        (rest : Except SigningError (ProtocolOutput P qq) × List Nat),
        validateArgs n vss_min_signers S i = some e →
        signing_t_out_of_n qq n vss_min_signers S i rest
          = (.error (.InvalidArgsErr e), [])) := by
  constructor
  · simp only [validateArgs]
    split_ifs with h1 h2 h3 <;> simp_all [List.any_eq_true]
  · intro P qq e rest h
    simp only [signing_t_out_of_n, h]

/-- C9: `PartialSignature::combine` returns `none` iff the input list is
empty, or the `r` of the first partial signature is zero, or the sum of the
`σ` components is zero; otherwise it returns the normalized signature built
from the first `r` and the sum of all `σ`; and its result depends only on
the first `r` and the `σ` components, so the `r` components of the remaining
entries are never inspected. -/
theorem C9_combine (q : ℕ) [Fact (Nat.Prime q)] :
    (combine q ([] : List (PartialSignature q)) = none)
    ∧ (∀ (p0 : PartialSignature q) (tail : List (PartialSignature q)),
        combine q (p0 :: tail) = none ↔
          p0.r = 0 ∨ ((p0 :: tail).map (fun p => p.sigma)).sum = 0)
    ∧ (∀ (p0 : PartialSignature q) (tail : List (PartialSignature q)),
        p0.r ≠ 0 → ((p0 :: tail).map (fun p => p.sigma)).sum ≠ 0 →
        combine q (p0 :: tail)
          = some (normalize_s q
              { r := p0.r, s := ((p0 :: tail).map (fun p => p.sigma)).sum }))
    ∧ (∀ (ps qs : List (PartialSignature q)),
        ps.map (fun p => p.sigma) = qs.map (fun p => p.sigma) →
        ps.head?.map (fun p => p.r) = qs.head?.map (fun p => p.r) →
        combine q ps = combine q qs) := by
  refine ⟨rfl, ?_, ?_, ?_⟩
  · intro p0 tail
    simp only [combine, nonZeroScalar]
    split_ifs with h1 h2 <;> simp_all
  · intro p0 tail h1 h2
    simp only [combine, nonZeroScalar]
    rw [if_neg h1, if_neg h2]
  · intro ps qs hsig hr
    cases ps with
    | nil =>
      cases qs with
      | nil => rfl
      | cons q0 qt => simp at hsig
    | cons p0 pt =>
      cases qs with
      | nil => simp at hsig
      | cons q0 qt =>
        have hr0 : p0.r = q0.r := by simpa using hr
        have hsum : ((p0 :: pt).map (fun p => p.sigma)).sum
            = ((q0 :: qt).map (fun p => p.sigma)).sum := by rw [hsig]
        simp only [combine, hr0, hsum]

/-- C2: `normalize_s` keeps `r` and replaces `s` by whichever of `s` and
`-s` has the smaller canonical representative; consequently every signature
assembled by the signing protocol and every signature returned by
`PartialSignature::combine` is in low-s form, `s ≤ q/2`. -/
theorem C2_low_s (q : ℕ) [Fact (Nat.Prime q)] :
    (∀ sig : Signature q,
      (normalize_s q sig).r = sig.r
      ∧ ((normalize_s q sig).s = sig.s ∨ (normalize_s q sig).s = -sig.s)
      ∧ (normalize_s q sig).s.val = min sig.s.val (-sig.s).val)
    ∧ (∀ sig : Signature q, (normalize_s q sig).s.val ≤ q / 2)
    ∧ (∀ (partial_sig : PartialSignature q) (received_sigmas : List (ZMod q))
        (sig : Signature q),
        assembleSignature q partial_sig received_sigmas = some sig →
        sig = normalize_s q
            { r := partial_sig.r, s := partial_sig.sigma + received_sigmas.sum }
          ∧ sig.s.val ≤ q / 2)
    ∧ (∀ (ps : List (PartialSignature q)) (sig : Signature q),
        combine q ps = some sig → sig.s.val ≤ q / 2) := by
  have hmin : ∀ sig : Signature q,
      (normalize_s q sig).r = sig.r
      ∧ ((normalize_s q sig).s = sig.s ∨ (normalize_s q sig).s = -sig.s)
      ∧ (normalize_s q sig).s.val = min sig.s.val (-sig.s).val := by
    intro sig
    simp only [normalize_s]
    split_ifs with h
    · refine ⟨rfl, Or.inr rfl, ?_⟩
      show (-sig.s).val = min sig.s.val (-sig.s).val
      omega
    · refine ⟨rfl, Or.inl rfl, ?_⟩
      show sig.s.val = min sig.s.val (-sig.s).val
      omega
  have hlow : ∀ sig : Signature q, (normalize_s q sig).s.val ≤ q / 2 := by
    intro sig
    have h1 := (hmin sig).2.2
    have h2 : sig.s.val < q := ZMod.val_lt _
    have h3 : (-sig.s).val = if sig.s = 0 then 0 else q - sig.s.val :=
      ZMod.neg_val _
    by_cases h0 : sig.s = 0
    · have e1 : sig.s.val = 0 := by rw [h0, ZMod.val_zero]
      omega
    · rw [if_neg h0] at h3
      omega
  refine ⟨hmin, hlow, ?_, ?_⟩
  · intro partial_sig received_sigmas sig h
    simp only [assembleSignature, nonZeroScalar] at h
    split_ifs at h with h1 h2
    all_goals try simp at h
    exact ⟨h.symm, by rw [← h]; exact hlow _⟩
  · intro ps sig h
    cases ps with
    | nil => exact absurd h (by simp [combine])
    | cons p0 pt =>
      simp only [combine, nonZeroScalar] at h
      split_ifs at h with h1 h2
      all_goals try simp at h
      rw [← h]
      exact hlow _

/-- C3 (amended): with reliable broadcast enforced, an honest party's
reliability round succeeds iff every peer broadcast the party's own hash of
the Round-1a transcript; otherwise it aborts with `Round1aNotReliable`, and
the blame list names exactly the peers whose broadcast hash differs from the
party's own hash — which need not include the equivocating sender. -/
theorem C3_reliability_check (h_i : Nat)
    (round1a_hashes : List (Nat × Nat × Nat)) :
    (reliabilityCheck h_i round1a_hashes = .ok ()
      ↔ ∀ m ∈ round1a_hashes, m.2.2 = h_i)
    ∧ (round1aReliabilityBlame h_i round1a_hashes ≠ [] →
        reliabilityCheck h_i round1a_hashes
          = .error (.Aborted (.Round1aNotReliable
              (round1aReliabilityBlame h_i round1a_hashes))))
    ∧ (∀ j mid, (j, mid) ∈ round1aReliabilityBlame h_i round1a_hashes ↔
        ∃ hsh, (j, mid, hsh) ∈ round1a_hashes ∧ hsh ≠ h_i) := by
  refine ⟨?_, ?_, ?_⟩
  · simp only [reliabilityCheck]
    split
    · next hemp =>
      have hall : ∀ m ∈ round1a_hashes, m.2.2 = h_i := by
        have hnil : round1aReliabilityBlame h_i round1a_hashes = [] :=
          List.isEmpty_iff.mp hemp
        simp only [round1aReliabilityBlame, List.map_eq_nil_iff,
          List.filter_eq_nil_iff] at hnil
        intro m hm
        simpa using hnil m hm
      exact iff_of_true rfl hall
    · next hemp =>
      constructor
      · intro hcontra; exact absurd hcontra (by simp)
      · intro hall
        exfalso
        apply hemp
        simp only [round1aReliabilityBlame, List.isEmpty_iff,
          List.map_eq_nil_iff, List.filter_eq_nil_iff]
        intro m hm
        simpa using hall m hm
  · intro hne
    simp only [reliabilityCheck]
    rw [if_neg (by simpa [List.isEmpty_iff] using hne)]
  · intro j mid
    simp only [round1aReliabilityBlame, List.mem_map, List.mem_filter]
    constructor
    · rintro ⟨⟨j', mid', hsh⟩, ⟨hmem, hne⟩, heq⟩
      obtain ⟨h1, h2⟩ := Prod.mk.injEq .. ▸ heq
      subst h1; subst h2
      exact ⟨hsh, hmem, by simpa using hne⟩
    · rintro ⟨hsh, hmem, hne⟩
      exact ⟨(j, mid, hsh), ⟨hmem, by simpa using hne⟩, rfl⟩

/-- C3 (counterexample): an equivocating sender need not be named by the
blame list.  Parties 0 and 1 are honest, party 2 equivocates in Round 1a,
sending payload byte 7 to party 0 and payload byte 8 to party 1; hence the
two honest transcript hashes differ.  Party 2 echoes party 0's hash back to
party 0.  Party 0's reliability round then aborts blaming party 1 — an
honest party — and the blame list does not contain the equivocating
sender 2, refuting the claim that the abort names the equivocating
sender. -/
theorem C3_counterexample :
    (7 : Nat) ≠ 8
    ∧ hashModel [5, 6, 7] ≠ hashModel [5, 6, 8]
    ∧ reliabilityCheck (hashModel [5, 6, 7])
        [(1, 101, hashModel [5, 6, 8]), (2, 102, hashModel [5, 6, 7])]
      = .error (.Aborted (.Round1aNotReliable [(1, 101)]))
    ∧ (∀ m ∈ ([(1, 101)] : List (Nat × Nat)), m.1 ≠ 2) :=
  ⟨by decide, by decide, rfl, by decide⟩

theorem presigOutput_eq_ite (q : ℕ) [Fact (Nat.Prime q)]
    (g Gamma k_i chi_i delta_i Delta_i : ZMod q)
    (round3_msgs : List (ZMod q × ZMod q)) :
    presigOutput q g Gamma k_i chi_i delta_i Delta_i round3_msgs
      = (if g * (delta_i + (round3_msgs.map (fun m => m.1)).sum)
              ≠ Delta_i + (round3_msgs.map (fun m => m.2)).sum
         then .error (.Aborted .MismatchedDelta)
         else if delta_i + (round3_msgs.map (fun m => m.1)).sum = 0
         then .error (.BugErr .ZeroDelta)
         else if Gamma * (delta_i + (round3_msgs.map (fun m => m.1)).sum)⁻¹ = 0
         then .error (.BugErr .ZeroR)
         else .ok { R := Gamma * (delta_i + (round3_msgs.map (fun m => m.1)).sum)⁻¹,
                    k := k_i, chi := chi_i }) := by
  simp only [presigOutput, invertScalar]
  by_cases h1 : g * (delta_i + (round3_msgs.map (fun m => m.1)).sum)
      ≠ Delta_i + (round3_msgs.map (fun m => m.2)).sum <;>
    by_cases h2 : delta_i + (round3_msgs.map (fun m => m.1)).sum = 0 <;>
    simp [h1, h2]

/-- C5: the presignature-output step computes `δ` and `Δ` as the sums of all
parties' contributions and aborts with `MismatchedDelta` iff `G·δ ≠ Δ`; when
they match, any presignature produced carries `R = Γ·δ⁻¹`, `R ≠ 0`, and the
party's own `k_i` and `χ_i`. -/
theorem C5_presig_output (q : ℕ) [Fact (Nat.Prime q)]
    (g Gamma k_i chi_i delta_i Delta_i : ZMod q)
    (round3_msgs : List (ZMod q × ZMod q)) :
    (presigOutput q g Gamma k_i chi_i delta_i Delta_i round3_msgs
        = .error (.Aborted .MismatchedDelta)
      ↔ g * (delta_i + (round3_msgs.map (fun m => m.1)).sum)
          ≠ Delta_i + (round3_msgs.map (fun m => m.2)).sum)
    ∧ (∀ presig,
        presigOutput q g Gamma k_i chi_i delta_i Delta_i round3_msgs
          = .ok presig →
        presig.R = Gamma * (delta_i + (round3_msgs.map (fun m => m.1)).sum)⁻¹
          ∧ presig.R ≠ 0 ∧ presig.k = k_i ∧ presig.chi = chi_i) := by
  rw [presigOutput_eq_ite]
  constructor
  · split_ifs with h1 h2 h3
    · exact iff_of_true rfl h1
    · exact iff_of_false (by simp) (by simpa using h1)
    · exact iff_of_false (by simp) (by simpa using h1)
    · exact iff_of_false (by simp) (by simpa using h1)
  · intro presig hok
    split_ifs at hok with h1 h2 h3
    have hx := Except.ok.inj hok
    subst hx
    exact ⟨rfl, h3, rfl, rfl⟩

theorem getD_zipWith_xor :
    ∀ (a b : List Nat) (k : Nat), k < a.length → k < b.length →
    (a.zipWith Nat.xor b).getD k 0 = Nat.xor (a.getD k 0) (b.getD k 0) := by
  intro a
  induction a with
  | nil => intro b k h _; simp at h
  | cons x xs ih =>
    intro b k hk hkb
    cases b with
    | nil => simp at hkb
    | cons y ys =>
      cases k with
      | zero => simp
      | succ k => simpa using ih ys k (by simpa using hk) (by simpa using hkb)

theorem xor_array_length (a b : List Nat) : (xor_array a b).length = a.length := by
  simp only [xor_array, List.length_append, List.length_zipWith, List.length_drop]
  omega

theorem xor_array_getD (a b : List Nat) (k : Nat) (hk : k < a.length)
    (hb : b.length = a.length) :
    (xor_array a b).getD k 0 = Nat.xor (a.getD k 0) (b.getD k 0) := by
  have hdrop : a.drop b.length = [] := by rw [hb, List.drop_length]
  rw [xor_array, hdrop, List.append_nil]
  exact getD_zipWith_xor a b k hk (hb ▸ hk)

theorem foldl_xor_array (L : Nat) :
    ∀ (rids : List (List Nat)) (acc : List Nat),
    acc.length = L → (∀ r ∈ rids, r.length = L) →
    (rids.foldl xor_array acc).length = L ∧
    ∀ b, b < L → (rids.foldl xor_array acc).getD b 0
      = (rids.map (fun r => r.getD b 0)).foldl Nat.xor (acc.getD b 0) := by
  intro rids
  induction rids with
  | nil => intro acc ha _; exact ⟨ha, fun _ _ => rfl⟩
  | cons r rs ih =>
    intro acc ha hl
    have hr : r.length = L := hl r (by simp)
    have h1 : (xor_array acc r).length = L := by rw [xor_array_length, ha]
    obtain ⟨ihl, ihd⟩ := ih (xor_array acc r) h1 (fun r hmem => hl r (by simp [hmem]))
    refine ⟨ihl, fun b hb => ?_⟩
    rw [List.foldl_cons, ihd b hb, List.map_cons, List.foldl_cons,
      xor_array_getD acc r b (by omega) (by rw [hr, ha])]

theorem computeRid_spec (L : Nat) (rids : List (List Nat))
    (hl : ∀ r ∈ rids, r.length = L) :
    (Keygen.computeRid L rids).length = L ∧
    ∀ b, b < L → (Keygen.computeRid L rids).getD b 0
      = (rids.map (fun r => r.getD b 0)).foldl Nat.xor 0 := by
  obtain ⟨h1, h2⟩ :=
    foldl_xor_array L rids (List.replicate L 0) (by simp) hl
  refine ⟨h1, fun b hb => ?_⟩
  have e : (List.replicate L (0 : Nat)).getD b 0 = 0 := by
    simp [List.getD_eq_getElem?_getD, List.getElem?_replicate, hb]
  rw [Keygen.computeRid, h2 b hb, e]

theorem get?_into_vec_including_me {α : Type} (i : Nat) (me : α)
    (others : List α) (h : i ≤ others.length) :
    (Keygen.into_vec_including_me i me others).get? i = some me := by
  have hlen : (others.take i).length = i := by
    rw [List.length_take]; omega
  rw [Keygen.into_vec_including_me, List.get?_eq_getElem?,
    List.getElem?_append_right (by omega), hlen, Nat.sub_self]
  simp

theorem mem_into_vec_including_me {α : Type} {a : α} (i : Nat) (me : α)
    (others : List α) (h : a ∈ Keygen.into_vec_including_me i me others) :
    a = me ∨ a ∈ others := by
  rw [Keygen.into_vec_including_me] at h
  rcases List.mem_append.mp h with h | h
  · exact Or.inr (List.take_subset i others h)
  · rcases List.mem_cons.mp h with h | h
    · exact Or.inl h
    · exact Or.inr (List.drop_subset i others h)

/-- C1: every successful run of the non-threshold DKG outputs an incomplete
key share whose `public_shares[j]` is the point `X_j` from party `j`'s
decommitment, whose `shared_public_key` is the sum of all `public_shares`,
whose `rid` is the byte-wise XOR of all parties' decommitted rid nonces, and
whose own entry `public_shares[i]` is `G · x_i` for the own secret `x`. -/
theorem C1_keygen_output (q : ℕ) [Fact (Nat.Prime q)] (g : ZMod q)
    (rid_len i : Nat) (x_i : ZMod q) (rid_i : List Nat)
    (sch_commit_i : ZMod q) (nonce_i : Nat)
    (received : List (Keygen.MsgRound2 q))
    (hashOk : Nat → Keygen.MsgRound2 q → Bool)
    (schnorrOk : List Nat → Nat → Keygen.MsgRound2 q → Bool)
    (share : Keygen.IncompleteKeyShare q)
    (hi : i ≤ received.length)
    (hlen_own : rid_i.length = rid_len)
    (hlen : ∀ d ∈ received, d.rid.length = rid_len)
    (hok : Keygen.start q g rid_len i x_i rid_i sch_commit_i nonce_i received
      hashOk schnorrOk = .ok share) :
    share.public_shares
        = (Keygen.into_vec_including_me i
            { rid := rid_i, X := g * x_i, sch_commit := sch_commit_i,
              decommit := nonce_i } received).map (fun d => d.X)
    ∧ share.shared_public_key = share.public_shares.sum
    ∧ share.rid.length = rid_len
    ∧ (∀ b, b < rid_len → share.rid.getD b 0
        = (((Keygen.into_vec_including_me i
              { rid := rid_i, X := g * x_i, sch_commit := sch_commit_i,
                decommit := nonce_i } received).map (fun d => d.rid)).map
            (fun r => r.getD b 0)).foldl Nat.xor 0)
    ∧ share.public_shares.get? i = some (g * x_i)
    ∧ share.x = x_i ∧ share.i = i := by
  simp only [Keygen.start, Keygen.keygenRounds] at hok
  split_ifs at hok with h1 h2
  have hx := Except.ok.inj hok
  subst hx
  have hmem : ∀ r ∈ (Keygen.into_vec_including_me i
      { rid := rid_i, X := g * x_i, sch_commit := sch_commit_i,
        decommit := nonce_i } received).map
        (fun d : Keygen.MsgRound2 q => d.rid), r.length = rid_len := by
    intro r hr
    obtain ⟨d, hd, rfl⟩ := List.mem_map.mp hr
    rcases mem_into_vec_including_me i _ received hd with h | h
    · rw [h]; exact hlen_own
    · exact hlen d h
  obtain ⟨hrl, hrd⟩ := computeRid_spec rid_len _ hmem
  refine ⟨rfl, rfl, hrl, hrd, ?_, rfl, rfl⟩
  rw [List.get?_eq_getElem?, List.getElem?_map, ← List.get?_eq_getElem?,
    get?_into_vec_including_me i _ received hi]
  rfl

theorem sqrtGo_eq_of_lt {x low high : Int} (h : low < high - 1) :
    sqrtGo x low high =
      (if (high + low) / 2 * ((high + low) / 2) = x then (high + low) / 2
       else if (high + low) / 2 * ((high + low) / 2) < x then
         sqrtGo x ((high + low) / 2) high
       else sqrtGo x low ((high + low) / 2)) := by
  rw [sqrtGo]
  rw [dif_pos h]

theorem sqrtGo_eq_of_ge {x low high : Int} (h : ¬ low < high - 1) :
    sqrtGo x low high = low := by
  rw [sqrtGo, dif_neg h]

theorem sqrtGo_correct (x low high : Int) (h1 : 1 ≤ low) (h2 : low < high)
    (h3 : low * low ≤ x) (h4 : x < high * high) :
    1 ≤ sqrtGo x low high ∧ sqrtGo x low high * sqrtGo x low high ≤ x ∧
      x < (sqrtGo x low high + 1) * (sqrtGo x low high + 1) := by
  by_cases hc : low < high - 1
  · rw [sqrtGo_eq_of_lt hc]
    have hm1 : low < (high + low) / 2 := by omega
    have hm2 : (high + low) / 2 < high := by omega
    have hmpos : 1 ≤ (high + low) / 2 := by omega
    by_cases he : (high + low) / 2 * ((high + low) / 2) = x
    · rw [if_pos he]
      refine ⟨hmpos, le_of_eq he, ?_⟩
      nlinarith
    · rw [if_neg he]
      by_cases hlt : (high + low) / 2 * ((high + low) / 2) < x
      · rw [if_pos hlt]
        exact sqrtGo_correct x ((high + low) / 2) high hmpos hm2 (le_of_lt hlt) h4
      · rw [if_neg hlt]
        have hgt : x < (high + low) / 2 * ((high + low) / 2) := by omega
        exact sqrtGo_correct x low ((high + low) / 2) h1 hm1 h3 hgt
  · rw [sqrtGo_eq_of_ge hc]
    refine ⟨h1, h3, ?_⟩
    have hhigh : high = low + 1 := by omega
    rw [hhigh] at h4
    exact h4
termination_by (high - low).toNat
decreasing_by
  · omega
  · omega

/-- C10: for every integer `x ≥ 1`, `utils::sqrt x` is the greatest integer
`s` with `s·s ≤ x` (the rounded-down square root), and for every `x ≤ 0` it
returns `1`.  Totality of the Lean function `sqrtGo` (checked by the
termination proof of its definition) witnesses that the binary search always
terminates. -/
theorem C10_sqrt :
    (∀ x : Int, 1 ≤ x →
      sqrt x * sqrt x ≤ x ∧ ∀ t : Int, t * t ≤ x → t ≤ sqrt x)
    ∧ (∀ x : Int, x ≤ 0 → sqrt x = 1) := by
  have hbase : ∀ x : Int, ¬ (1 : Int) < x - 1 → sqrt x = 1 := by
    intro x hx
    rw [sqrt, sqrtGo_eq_of_ge hx]
  constructor
  · intro x hx
    by_cases hsmall : x ≤ 2
    · have h1 : sqrt x = 1 := hbase x (by omega)
      rw [h1]
      refine ⟨by omega, ?_⟩
      intro t ht
      nlinarith
    · push_neg at hsmall
      obtain ⟨hge1, hle, hlt⟩ := sqrtGo_correct x 1 x (le_refl 1) (by omega)
        (by nlinarith) (by nlinarith)
      rw [sqrt]
      refine ⟨hle, ?_⟩
      intro t ht
      by_contra hgt
      push_neg at hgt
      have h5 : sqrtGo x 1 x + 1 ≤ t := by omega
      have h6 : (0 : Int) ≤ sqrtGo x 1 x + 1 := by omega
      have h7 : (sqrtGo x 1 x + 1) * (sqrtGo x 1 x + 1) ≤ t * t :=
        mul_le_mul h5 h5 h6 (by omega)
      linarith
  · intro x hx
    exact hbase x (by omega)

theorem map_snd_filter_enumFrom_of_lt {α : Type} :
    ∀ (xs : List α) (n i : Nat), i < n →
    ((List.enumFrom n xs).filter (fun p => p.1 ≠ i)).map (fun p => p.2) = xs := by
  intro xs
  induction xs with
  | nil => intro n i _; rfl
  | cons x xs ih =>
    intro n i h
    have hne : n ≠ i := by omega
    show (((n, x) :: List.enumFrom (n + 1) xs).filter
        (fun p => p.1 ≠ i)).map (fun p => p.2) = x :: xs
    rw [List.filter_cons, if_pos (by simpa using hne), List.map_cons,
      ih (n + 1) i (by omega)]

theorem map_snd_filter_enumFrom_shift {α : Type} :
    ∀ (xs : List α) (n i : Nat),
    ((List.enumFrom (n + 1) xs).filter (fun p => p.1 ≠ i + 1)).map (fun p => p.2)
      = ((List.enumFrom n xs).filter (fun p => p.1 ≠ i)).map (fun p => p.2) := by
  intro xs
  induction xs with
  | nil => intro n i; rfl
  | cons x xs ih =>
    intro n i
    show (((n + 1, x) :: List.enumFrom (n + 2) xs).filter
        (fun p => p.1 ≠ i + 1)).map (fun p => p.2)
      = (((n, x) :: List.enumFrom (n + 1) xs).filter (fun p => p.1 ≠ i)).map
          (fun p => p.2)
    by_cases hni : n = i
    · subst hni
      rw [List.filter_cons, List.filter_cons, if_neg (by simp), if_neg (by simp)]
      exact ih (n + 1) n
    · rw [List.filter_cons, List.filter_cons, if_pos (by simpa using hni),
        if_pos (by simpa [Nat.succ_ne_succ] using hni), List.map_cons,
        List.map_cons, ih (n + 1) i]

theorem but_nth_zero {α : Type} (x : α) (xs : List α) :
    but_nth 0 (x :: xs) = xs := by
  show (((0, x) :: List.enumFrom 1 xs).filter
      (fun p => p.1 ≠ 0)).map (fun p => p.2) = xs
  rw [List.filter_cons, if_neg (by simp)]
  exact map_snd_filter_enumFrom_of_lt xs 1 0 (by omega)

theorem but_nth_succ {α : Type} (x : α) (xs : List α) (k : Nat) :
    but_nth (k + 1) (x :: xs) = x :: but_nth k xs := by
  show (((0, x) :: List.enumFrom 1 xs).filter
      (fun p => p.1 ≠ k + 1)).map (fun p => p.2) = x :: but_nth k xs
  rw [List.filter_cons, if_pos (by simp), List.map_cons]
  exact congrArg (x :: ·) (map_snd_filter_enumFrom_shift xs 0 k)

theorem mem_but_nth {α : Type} (a : α) (j : Nat) (xs : List α) :
    a ∈ but_nth j xs ↔ ∃ m, m ≠ j ∧ xs.get? m = some a := by
  constructor
  · intro h
    obtain ⟨p, hp, rfl⟩ := List.mem_map.mp h
    obtain ⟨hmem, hne⟩ := List.mem_filter.mp hp
    refine ⟨p.1, by simpa using hne, ?_⟩
    rw [List.get?_eq_getElem?]
    exact List.mk_mem_enum_iff_getElem?.mp (by simpa using hmem)
  · rintro ⟨m, hne, hget⟩
    refine List.mem_map.mpr ⟨(m, a), List.mem_filter.mpr ⟨?_, by simpa using hne⟩, rfl⟩
    exact List.mk_mem_enum_iff_getElem?.mpr (by rw [← List.get?_eq_getElem?]; exact hget)

theorem nonZeroScalar_getD (q : ℕ) [Fact (Nat.Prime q)] (a : ZMod q) :
    (nonZeroScalar q a).getD 0 = a := by
  rw [nonZeroScalar]
  split_ifs with h
  · rw [h]; rfl
  · rfl

theorem map_prod_range (q : ℕ) [Fact (Nat.Prime q)] (f : ZMod q → ZMod q) :
    ∀ xs : List (ZMod q),
    (xs.map f).prod = ∏ j ∈ Finset.range xs.length, f (xs.getD j 0) := by
  intro xs
  induction xs with
  | nil => simp
  | cons x xs ih =>
    rw [List.map_cons, List.prod_cons, ih, List.length_cons,
      Finset.prod_range_succ']
    simp only [List.getD_cons_succ, List.getD_cons_zero]
    rw [mul_comm]

theorem erase_zero_range_succ (n : Nat) :
    (Finset.range (n + 1)).erase 0
      = Finset.map ⟨fun m => m + 1, fun a b h => by simpa using h⟩ (Finset.range n) := by
  ext m
  simp only [Finset.mem_erase, Finset.mem_range, Finset.mem_map,
    Function.Embedding.coeFn_mk]
  constructor
  · rintro ⟨h0, hm⟩
    exact ⟨m - 1, by omega, by omega⟩
  · rintro ⟨k, hk, rfl⟩
    omega

theorem erase_succ_range_succ (n k : Nat) :
    (Finset.range (n + 1)).erase (k + 1)
      = insert 0 (Finset.map ⟨fun m => m + 1, fun a b h => by simpa using h⟩
          ((Finset.range n).erase k)) := by
  ext m
  simp only [Finset.mem_erase, Finset.mem_range, Finset.mem_insert,
    Finset.mem_map, Function.Embedding.coeFn_mk]
  constructor
  · rintro ⟨hne, hm⟩
    rcases Nat.eq_zero_or_pos m with rfl | hpos
    · exact Or.inl rfl
    · exact Or.inr ⟨m - 1, ⟨by omega, by omega⟩, by omega⟩
  · rintro (rfl | ⟨k', ⟨hne, hk'⟩, rfl⟩)
    · omega
    · omega

theorem but_nth_map_prod (q : ℕ) [Fact (Nat.Prime q)] (f : ZMod q → ZMod q) :
    ∀ (xs : List (ZMod q)) (i : Nat), i < xs.length →
    ((but_nth i xs).map f).prod
      = ∏ j ∈ (Finset.range xs.length).erase i, f (xs.getD j 0) := by
  intro xs
  induction xs with
  | nil => intro i h; simp at h
  | cons x xs ih =>
    intro i hi
    cases i with
    | zero =>
      rw [but_nth_zero, List.length_cons, erase_zero_range_succ,
        Finset.prod_map, map_prod_range]
      simp
    | succ k =>
      have hk : k < xs.length := by simpa using hi
      rw [but_nth_succ, List.map_cons, List.prod_cons, ih k hk,
        List.length_cons, erase_succ_range_succ,
        Finset.prod_insert (by simp), Finset.prod_map]
      simp

theorem evalPoly_eq_eval (q : ℕ) [Fact (Nat.Prime q)] (coeffs : List (ZMod q))
    (t : ZMod q) : evalPoly q coeffs t = (toPoly q coeffs).eval t := by
  induction coeffs with
  | nil => simp [evalPoly, toPoly]
  | cons c cs ih =>
    rw [evalPoly, toPoly, Polynomial.eval_add, Polynomial.eval_C,
      Polynomial.eval_mul, Polynomial.eval_X, ih]

theorem coeff_toPoly_eq_zero (q : ℕ) [Fact (Nat.Prime q)]
    (coeffs : List (ZMod q)) :
    ∀ m, coeffs.length ≤ m → (toPoly q coeffs).coeff m = 0 := by
  induction coeffs with
  | nil => intro m _; simp [toPoly]
  | cons c cs ih =>
    intro m hm
    have hm0 : m ≠ 0 := by simp only [List.length_cons] at hm; omega
    obtain ⟨m', rfl⟩ := Nat.exists_eq_succ_of_ne_zero hm0
    rw [toPoly, Polynomial.coeff_add, Polynomial.coeff_C, Polynomial.coeff_X_mul,
      ih m' (by simp only [List.length_cons] at hm; omega)]
    simp

theorem degree_toPoly_lt (q : ℕ) [Fact (Nat.Prime q)]
    (coeffs : List (ZMod q)) :
    (toPoly q coeffs).degree < (coeffs.length : ℕ) := by
  rw [Polynomial.degree_lt_iff_coeff_zero]
  intro m hm
  exact coeff_toPoly_eq_zero q coeffs m (by exact_mod_cast hm)

theorem injOn_getD (q : ℕ) [Fact (Nat.Prime q)] (xs : List (ZMod q))
    (hnd : xs.Nodup) :
    Set.InjOn (fun m => xs.getD m 0) (Finset.range xs.length) := by
  intro a ha b hb hab
  have ha' : a < xs.length := by simpa using ha
  have hb' : b < xs.length := by simpa using hb
  have hinj := List.nodup_iff_injective_getElem.mp hnd
  have hab2 : xs.getD a 0 = xs.getD b 0 := hab
  rw [List.getD_eq_getElem xs 0 ha', List.getD_eq_getElem xs 0 hb'] at hab2
  have : (⟨a, ha'⟩ : Fin xs.length) = ⟨b, hb'⟩ := by
    apply hinj
    simpa using hab2
  simpa using congrArg Fin.val this

theorem eval_basis_at_zero (q : ℕ) [Fact (Nat.Prime q)] (s : Finset ℕ)
    (v : ℕ → ZMod q) (i : ℕ) :
    Polynomial.eval 0 (Lagrange.basis s v i)
      = (∏ j ∈ s.erase i, (0 - v j)) * (∏ j ∈ s.erase i, (v i - v j))⁻¹ := by
  rw [Lagrange.basis, Polynomial.eval_prod]
  have h : ∀ j ∈ s.erase i,
      Polynomial.eval 0 (Lagrange.basisDivisor (v i) (v j))
        = (0 - v j) * (v i - v j)⁻¹ := by
    intro j _
    rw [Lagrange.basisDivisor]
    simp [mul_comm]
  rw [Finset.prod_congr rfl h, Finset.prod_mul_distrib, ← Finset.prod_inv_distrib]

theorem lagrange_coefficient_getD (q : ℕ) [Fact (Nat.Prime q)] (x : ZMod q)
    (j : Nat) (xs : List (ZMod q)) (hj : j < xs.length) :
    (lagrange_coefficient q x j xs).getD 0
      = ((but_nth j xs).map (fun x_m => x - x_m)).prod
        * (((but_nth j xs).map (fun x_m => xs.getD j 0 - x_m)).prod)⁻¹ := by
  have hget : xs.get? j = some (xs.getD j 0) := by
    rw [List.get?_eq_getElem?, List.getElem?_eq_getElem hj,
      List.getD_eq_getElem xs 0 hj]
  simp only [lagrange_coefficient, hget]
  by_cases hden : ((but_nth j xs).map (fun x_m => xs.getD j 0 - x_m)).prod = 0
  · rw [invertScalar, if_pos hden, hden, inv_zero, mul_zero]
    rfl
  · rw [invertScalar, if_neg hden]
    exact nonZeroScalar_getD q _

theorem lagrange_coefficient_eq_eval_basis (q : ℕ) [Fact (Nat.Prime q)]
    (xs : List (ZMod q)) (j : Nat) (hj : j < xs.length) :
    (lagrange_coefficient q 0 j xs).getD 0
      = Polynomial.eval 0 (Lagrange.basis (Finset.range xs.length)
          (fun m => xs.getD m 0) j) := by
  rw [lagrange_coefficient_getD q 0 j xs hj, eval_basis_at_zero,
    but_nth_map_prod q (fun x_m => (0 : ZMod q) - x_m) xs j hj,
    but_nth_map_prod q (fun x_m => xs.getD j 0 - x_m) xs j hj]

theorem nonZeroScalar_eq_none (q : ℕ) [Fact (Nat.Prime q)] (a : ZMod q) :
    nonZeroScalar q a = none ↔ a = 0 := by
  rw [nonZeroScalar]
  split_ifs with h <;> simp [h]

theorem nonZeroScalar_of_ne (q : ℕ) [Fact (Nat.Prime q)] {a : ZMod q}
    (h : a ≠ 0) : nonZeroScalar q a = some a := by
  rw [nonZeroScalar, if_neg h]

theorem lagrange_coefficient_eq_none_of_ge (q : ℕ) [Fact (Nat.Prime q)]
    (x : ZMod q) (j : Nat) (xs : List (ZMod q)) (hget : xs.get? j = none) :
    lagrange_coefficient q x j xs = none := by
  simp only [lagrange_coefficient, hget]

theorem lagrange_coefficient_eq_ite (q : ℕ) [Fact (Nat.Prime q)] (x : ZMod q)
    (j : Nat) (xs : List (ZMod q)) (x_j : ZMod q)
    (hget : xs.get? j = some x_j) :
    lagrange_coefficient q x j xs =
      (if ((but_nth j xs).map (fun x_m => x_j - x_m)).prod = 0 then none
       else nonZeroScalar q (((but_nth j xs).map (fun x_m => x - x_m)).prod
         * (((but_nth j xs).map (fun x_m => x_j - x_m)).prod)⁻¹)) := by
  simp only [lagrange_coefficient, hget, invertScalar]
  by_cases hden : ((but_nth j xs).map (fun x_m => x_j - x_m)).prod = 0 <;>
    simp [hden]

theorem get?_eq_some_getD (q : ℕ) [Fact (Nat.Prime q)] (xs : List (ZMod q))
    (j : Nat) (hj : j < xs.length) : xs.get? j = some (xs.getD j 0) := by
  rw [List.get?_eq_getElem?, List.getElem?_eq_getElem hj,
    List.getD_eq_getElem xs 0 hj]

/-- C7 (amended): for pairwise-distinct non-zero scalars `xs` and every
polynomial (given by its coefficient list) of degree below `xs.length`,
summing `lagrange_coefficient 0 j xs · f(xs[j])` over all `j` reconstructs
`f(0)`; `lagrange_coefficient 0 j xs` equals
`Π_{m≠j} (-xs[m]) / Π_{m≠j} (xs[j] - xs[m])`; and the function returns `none`
exactly when `j ≥ xs.len()`, or when `xs[j]` coincides with another point of
the list (denominator not invertible), or when the interpolation point `x`
coincides with a point `xs[m]`, `m ≠ j` (the resulting coefficient is zero) —
a duplicate among points other than `xs[j]` does **not** make it return
`none`. -/
theorem C7_lagrange_coefficient (q : ℕ) [Fact (Nat.Prime q)] :
    (∀ (xs : List (ZMod q)) (coeffs : List (ZMod q)),
      xs.Nodup → (∀ a ∈ xs, a ≠ 0) → coeffs.length ≤ xs.length →
      ∑ j ∈ Finset.range xs.length,
        (lagrange_coefficient q 0 j xs).getD 0 * evalPoly q coeffs (xs.getD j 0)
        = evalPoly q coeffs 0)
    ∧ (∀ (xs : List (ZMod q)) (j : Nat) (x_j : ZMod q),
        xs.Nodup → (∀ a ∈ xs, a ≠ 0) → xs.get? j = some x_j →
        lagrange_coefficient q 0 j xs
          = some (((but_nth j xs).map (fun x_m => -x_m)).prod
              / ((but_nth j xs).map (fun x_m => x_j - x_m)).prod))
    ∧ (∀ (x : ZMod q) (j : Nat) (xs : List (ZMod q)),
        lagrange_coefficient q x j xs = none ↔
          xs.length ≤ j
          ∨ ∃ m, m ≠ j ∧ (xs.get? m = xs.get? j ∨ xs.get? m = some x)) := by
  refine ⟨?_, ?_, ?_⟩
  · -- (a) interpolation at 0
    intro xs coeffs hnd hnz hdeg
    have hinj : Set.InjOn (fun m => xs.getD m 0) (Finset.range xs.length) :=
      injOn_getD q xs hnd
    have hdeg' : (toPoly q coeffs).degree < (Finset.range xs.length).card := by
      rw [Finset.card_range]
      exact lt_of_lt_of_le (degree_toPoly_lt q coeffs) (by exact_mod_cast hdeg)
    have heq := Lagrange.eq_interpolate hinj hdeg'
    have heval := congrArg (Polynomial.eval 0) heq
    rw [Lagrange.interpolate_apply, Polynomial.eval_finset_sum] at heval
    simp only [Polynomial.eval_mul, Polynomial.eval_C] at heval
    calc ∑ j ∈ Finset.range xs.length,
          (lagrange_coefficient q 0 j xs).getD 0
            * evalPoly q coeffs (xs.getD j 0)
        = ∑ j ∈ Finset.range xs.length,
            (toPoly q coeffs).eval (xs.getD j 0)
              * Polynomial.eval 0 (Lagrange.basis (Finset.range xs.length)
                  (fun m => xs.getD m 0) j) := by
          refine Finset.sum_congr rfl fun j hj => ?_
          rw [lagrange_coefficient_eq_eval_basis q xs j (Finset.mem_range.mp hj),
            evalPoly_eq_eval, mul_comm]
      _ = (toPoly q coeffs).eval 0 := heval.symm
      _ = evalPoly q coeffs 0 := (evalPoly_eq_eval q coeffs 0).symm
  · -- (b) explicit product formula
    intro xs j x_j hnd hnz hget
    have hj : j < xs.length := by
      by_contra hcon
      push_neg at hcon
      rw [List.get?_eq_none.mpr hcon] at hget
      exact absurd hget (by simp)
    have hden : ((but_nth j xs).map (fun x_m => x_j - x_m)).prod ≠ 0 := by
      rw [Ne, List.prod_eq_zero_iff]
      intro h0
      obtain ⟨a, ha, ha0⟩ := List.mem_map.mp h0
      obtain ⟨m, hmne, hgm⟩ := (mem_but_nth a j xs).mp ha
      have hm : m < xs.length := by
        by_contra hcon
        push_neg at hcon
        rw [List.get?_eq_none.mpr hcon] at hgm
        exact absurd hgm (by simp)
      have hax : a = x_j := (sub_eq_zero.mp ha0).symm
      apply hmne
      have e1 : xs[m] = a := by
        rw [List.get?_eq_getElem?, List.getElem?_eq_getElem hm] at hgm
        exact Option.some.inj hgm
      have e2 : xs[j] = x_j := by
        rw [List.get?_eq_getElem?, List.getElem?_eq_getElem hj] at hget
        exact Option.some.inj hget
      have hfin : (⟨m, hm⟩ : Fin xs.length) = ⟨j, hj⟩ := by
        apply List.nodup_iff_injective_getElem.mp hnd
        simp only [e1, e2, hax]
      simpa using congrArg Fin.val hfin
    have hnom : ((but_nth j xs).map (fun x_m => (0 : ZMod q) - x_m)).prod ≠ 0 := by
      rw [Ne, List.prod_eq_zero_iff]
      intro h0
      obtain ⟨a, ha, ha0⟩ := List.mem_map.mp h0
      obtain ⟨m, _, hgm⟩ := (mem_but_nth a j xs).mp ha
      exact hnz a (List.get?_mem hgm) (sub_eq_zero.mp ha0).symm
    rw [lagrange_coefficient_eq_ite q 0 j xs x_j hget, if_neg hden,
      nonZeroScalar_of_ne q (mul_ne_zero hnom (inv_ne_zero hden)),
      div_eq_mul_inv]
    congr 2
    simp [zero_sub]
  · -- (c') exact characterization of the `none` cases
    intro x j xs
    by_cases hj : j < xs.length
    · have hget := get?_eq_some_getD q xs j hj
      rw [lagrange_coefficient_eq_ite q x j xs (xs.getD j 0) hget]
      constructor
      · intro h
        by_cases hden :
            ((but_nth j xs).map (fun x_m => xs.getD j 0 - x_m)).prod = 0
        · right
          rw [List.prod_eq_zero_iff] at hden
          obtain ⟨a, ha, ha0⟩ := List.mem_map.mp hden
          obtain ⟨m, hmne, hgm⟩ := (mem_but_nth a j xs).mp ha
          refine ⟨m, hmne, Or.inl ?_⟩
          rw [hgm, hget]
          exact congrArg some (sub_eq_zero.mp ha0).symm
        · rw [if_neg hden] at h
          have hval : ((but_nth j xs).map (fun x_m => x - x_m)).prod
              * (((but_nth j xs).map
                  (fun x_m => xs.getD j 0 - x_m)).prod)⁻¹ = 0 :=
            (nonZeroScalar_eq_none q _).mp h
          have hnom : ((but_nth j xs).map (fun x_m => x - x_m)).prod = 0 := by
            rcases mul_eq_zero.mp hval with h1 | h1
            · exact h1
            · exact absurd (inv_eq_zero.mp h1) hden
          right
          rw [List.prod_eq_zero_iff] at hnom
          obtain ⟨a, ha, ha0⟩ := List.mem_map.mp hnom
          obtain ⟨m, hmne, hgm⟩ := (mem_but_nth a j xs).mp ha
          refine ⟨m, hmne, Or.inr ?_⟩
          rw [hgm]
          exact congrArg some (sub_eq_zero.mp ha0).symm
      · rintro (hlen | ⟨m, hmne, hcase⟩)
        · omega
        · rcases hcase with hc | hc
          · have hm : m < xs.length := by
              by_contra hcon
              push_neg at hcon
              rw [List.get?_eq_none.mpr hcon, hget] at hc
              exact absurd hc.symm (by simp)
            have ham := get?_eq_some_getD q xs m hm
            have hmd : xs.getD m 0 = xs.getD j 0 := by
              rw [ham, hget] at hc
              exact Option.some.inj hc
            have hden : ((but_nth j xs).map
                (fun x_m => xs.getD j 0 - x_m)).prod = 0 := by
              rw [List.prod_eq_zero_iff]
              refine List.mem_map.mpr ⟨xs.getD m 0,
                (mem_but_nth _ j xs).mpr ⟨m, hmne, ham⟩, ?_⟩
              rw [hmd, sub_self]
            rw [if_pos hden]
          · have hm : m < xs.length := by
              by_contra hcon
              push_neg at hcon
              rw [List.get?_eq_none.mpr hcon] at hc
              exact absurd hc (by simp)
            have ham := get?_eq_some_getD q xs m hm
            have hmx : xs.getD m 0 = x := by
              rw [ham] at hc
              exact Option.some.inj hc
            have hnom : ((but_nth j xs).map (fun x_m => x - x_m)).prod = 0 := by
              rw [List.prod_eq_zero_iff]
              refine List.mem_map.mpr ⟨xs.getD m 0,
                (mem_but_nth _ j xs).mpr ⟨m, hmne, ham⟩, ?_⟩
              rw [hmx, sub_self]
            by_cases hden : ((but_nth j xs).map
                (fun x_m => xs.getD j 0 - x_m)).prod = 0
            · rw [if_pos hden]
            · rw [if_neg hden, hnom, zero_mul]
              exact (nonZeroScalar_eq_none q _).mpr rfl
    · push_neg at hj
      rw [lagrange_coefficient_eq_none_of_ge q x j xs
        (List.get?_eq_none.mpr hj)]
      exact iff_of_true rfl (Or.inl hj)

/-- C7 (counterexample): `lagrange_coefficient` does not return `none` on
every input whose points are not pairwise distinct: over `ZMod 5`, the list
`[1, 2, 2]` has a duplicate, yet the coefficient at `j = 0` is `some 4`,
because the duplicate does not involve `xs[0]`. -/
theorem C7_counterexample :
    ¬ ([1, 2, 2] : List (ZMod 5)).Nodup
    ∧ lagrange_coefficient 5 0 0 [1, 2, 2] = some 4 := by
  constructor
  · decide
  · have hden : ((but_nth 0 [(1 : ZMod 5), 2, 2]).map
        (fun x_m => 1 - x_m)).prod = 1 := by decide
    have hnom : ((but_nth 0 [(1 : ZMod 5), 2, 2]).map
        (fun x_m => 0 - x_m)).prod = 4 := by decide
    rw [lagrange_coefficient_eq_ite 5 0 0 [1, 2, 2] 1 (by decide), hden, hnom,
      if_neg (by decide), inv_one, mul_one]
    exact nonZeroScalar_of_ne 5 (by decide)

/-- Closed witness for C7: the amended theorem applied to the concrete list
`[1, 2]` over `ZMod 5` at `j = 0`. -/
theorem C7_lagrange_coefficient_witness :
    lagrange_coefficient 5 0 0 [1, 2]
      = some ((((but_nth 0 [(1 : ZMod 5), 2]).map (fun x_m => -x_m)).prod)
          / (((but_nth 0 [(1 : ZMod 5), 2]).map (fun x_m => 1 - x_m)).prod)) :=
  (C7_lagrange_coefficient 5).2.1 [1, 2] 0 1 (by decide) (by decide) (by decide)

/-- Closed witness for C1: a 3-party run (parties 0 and 2 received, own
index 1) with trivially-accepting commitment and Schnorr verifiers. -/
theorem C1_keygen_output_witness :
    Keygen.start 5 2 2 1 1 [1, 2] 0 0
        [{ rid := [3, 4], X := 3, sch_commit := 0, decommit := 0 },
         { rid := [5, 6], X := 4, sch_commit := 0, decommit := 0 }]
        (fun _ _ => true) (fun _ _ _ => true)
      = .ok { i := 1, shared_public_key := 4, rid := [7, 0],
              public_shares := [3, 2, 4], x := 1 }
    ∧ ({ i := 1, shared_public_key := 4, rid := [7, 0],
         public_shares := [3, 2, 4], x := 1 } :
           Keygen.IncompleteKeyShare 5).public_shares.get? 1 = some (2 * 1) :=
  have hok : Keygen.start 5 2 2 1 1 [1, 2] 0 0
      [{ rid := [3, 4], X := 3, sch_commit := 0, decommit := 0 },
       { rid := [5, 6], X := 4, sch_commit := 0, decommit := 0 }]
      (fun _ _ => true) (fun _ _ _ => true)
    = .ok { i := 1, shared_public_key := 4, rid := [7, 0],
            public_shares := [3, 2, 4], x := 1 } := rfl
  ⟨hok, (C1_keygen_output 5 2 2 1 1 [1, 2] 0 0 _ _ _ _ (by decide) (by decide)
    (by decide) hok).2.2.2.2.1⟩

/-- Closed witness for C2: combining one partial signature with `σ = 4` over
`ZMod 5` yields the normalized signature `s = 1`, which is low-s. -/
theorem C2_low_s_witness :
    combine 5 [{ r := 1, sigma := 4 }] = some { r := 1, s := 1 }
    ∧ ({ r := 1, s := 1 } : Signature 5).s.val ≤ 5 / 2 :=
  have hok : combine 5 [{ r := 1, sigma := 4 }]
      = some { r := (1 : ZMod 5), s := 1 } := by decide
  ⟨hok, (C2_low_s 5).2.2.2 [{ r := 1, sigma := 4 }] _ hok⟩

/-- Closed witness for C3 (amended): a peer broadcasting a hash different
from the own hash makes the reliability check abort with exactly the
collected blame list. -/
theorem C3_reliability_check_witness :
    reliabilityCheck 5 [(1, 9, 6)]
      = .error (.Aborted (.Round1aNotReliable
          (round1aReliabilityBlame 5 [(1, 9, 6)]))) :=
  (C3_reliability_check 5 [(1, 9, 6)]).2.1 (by decide)

/-- Closed witness for C4: a peer whose `ψ` proof fails is recorded in the
Round-2 blame list together with the three verdicts. -/
theorem C4_round2_blame_maximal_witness :
    (3, 10, 11, ((some () : Option Unit), (none : Option Unit),
        (none : Option Unit)))
      ∈ collectFaultyRound2 (fun _ => some ()) (fun _ => none) (fun _ => none)
          [(3, 10, 11)] :=
  ((C4_round2_blame_maximal (fun _ => some ()) (fun _ => none) (fun _ => none)
    [(3, 10, 11)]).1 3 10 11 (by decide)).mpr (Or.inl (by decide))

/-- Closed witness for C5: a matching `δ`/`Δ` pair produces a presignature
with non-zero `R = Γ·δ⁻¹`. -/
theorem C5_presig_output_witness :
    presigOutput 5 1 3 2 4 1 1 [] = .ok { R := 3, k := 2, chi := 4 }
    ∧ (3 : ZMod 5) ≠ 0 :=
  have hok : presigOutput 5 1 3 2 4 1 1 []
      = .ok { R := (3 : ZMod 5), k := 2, chi := 4 } := by
    rw [presigOutput_eq_ite]
    simp
    decide
  ⟨hok, ((C5_presig_output 5 1 3 2 4 1 1 []).2 _ hok).2.1⟩

/-- Closed witness for C6: a signer set of the wrong size makes the
protocol return `InvalidArgs` with no message sent. -/
theorem C6_invalid_args_witness :
    signing_t_out_of_n (P := Unit) 5 3 none [0, 1] 0
        (Except.ok (ProtocolOutput.Signature ({ r := 1, s := 1 } : Signature 5)),
          [7])
      = (.error (.InvalidArgsErr .MismatchedAmountOfParties), []) :=
  (C6_invalid_args 3 none [0, 1] 0).2 5 .MismatchedAmountOfParties _ (by decide)

/-- Closed witness for C9: partial signatures with mismatching `r`
components still combine; only the first `r` is used. -/
theorem C9_combine_witness :
    combine 5 [{ r := 1, sigma := 1 }, { r := 2, sigma := 1 }]
      = some (normalize_s 5
          { r := 1,
            s := (([{ r := 1, sigma := 1 }, { r := 2, sigma := 1 }] :
              List (PartialSignature 5)).map (fun p => p.sigma)).sum }) :=
  (C9_combine 5).2.2.1 { r := 1, sigma := 1 } [{ r := 2, sigma := 1 }]
    (by decide) (by decide)

/-- Closed witness for C10: the rounded-down square root of `10` and the
value at a negative input. -/
theorem C10_sqrt_witness :
    sqrt 10 * sqrt 10 ≤ 10 ∧ sqrt (-5) = 1 :=
  ⟨(C10_sqrt.1 10 (by norm_num)).1, C10_sqrt.2 (-5) (by norm_num)⟩

/-- Closed witness for C8: a concrete presignature over `ZMod 5` with
`x`-coordinate map returning `2`. -/
theorem C8_issue_partial_signature_witness :
    (issue_partial_signature 5 (fun _ : Unit => (2 : ZMod 5))
        { R := (), k := 3, chi := 4 } 1).r = 2
    ∧ (issue_partial_signature 5 (fun _ : Unit => (2 : ZMod 5))
        { R := (), k := 3, chi := 4 } 1).sigma = 3 * 1 + 2 * 4 :=
  C8_issue_partial_signature 5 (fun _ : Unit => (2 : ZMod 5))
    { R := (), k := 3, chi := 4 } 1

end Cggmp21
